import Mathlib

/-!
# Verification of the `feet` CSV storage engine

Shallow embedding of the storage engine's core operations:

* schema inference (`min_column_type`, `determine_column_types` in `glue.rs`),
* row encode/decode (`format_value` in `main.rs`, `value_from_str` in `glue.rs`),
* the line-injection merge (`line_injector.rs`),
* keyed insert and delete (`insert_data`, `delete_data` in `glue.rs`),
* append/scan (`append_data`, `scan_data` in `glue.rs`),
* table identity resolution (`names.rs`).

Files are modelled as lists of lines (for the line-oriented mutation code) or
as lists of records, i.e. lists of field lists (for the csv-reader-based code,
where the `csv` crate's quoting makes writer/reader inverse at record level).
Machine integers are modelled as `Int` with explicit range checks where the
source performs fallible conversions.
-/

namespace Feet

/-! ### String helpers

Kernel-computable models of the string operations the source relies on
(`str::split`, `BufRead::lines`, `Path`'s dot handling), defined by
structural recursion on the character list so that concrete runs reduce. -/

/-- Split a character list at every occurrence of `sep`; like
`String.splitOn` with a single-character separator, the result is `[[]]` on
the empty input and has one piece more than there are separators. -/
def splitCharsOn (sep : Char) : List Char → List (List Char)
  | [] => [[]]
  | c :: rest =>
    if c = sep then [] :: splitCharsOn sep rest
    else
      match splitCharsOn sep rest with
      | [] => [[c]]
      | piece :: pieces => (c :: piece) :: pieces

/-- `String` version of `splitCharsOn`. -/
def splitStrOn (sep : Char) (s : String) : List String :=
  (splitCharsOn sep s.data).map List.asString

/-- Drop the last `n` characters. -/
def strDropRight (s : String) (n : Nat) : String :=
  (s.data.take (s.data.length - n)).asString

/-- Result of running a fallible Rust function: `ok`, an error returned as a
value (`anyhow::Error`), a panic (`todo!()`/`panic!`), or divergence
(an infinite loop, e.g. collecting a non-terminating iterator). -/
inductive RunResult (α : Type) where
  | ok (val : α)
  | err (msg : String)
  | panic
  | diverge
deriving DecidableEq, Repr

/-! ## Column types (`glue.rs`, `enum ColumnType`)

Rust derives `Ord` with variant order `Int < Float < String`. -/

inductive ColumnType where
  | int
  | float
  | string
deriving DecidableEq, Repr

def ColumnType.toNat : ColumnType → Nat
  | .int => 0
  | .float => 1
  | .string => 2

/-- `std::cmp::max` on `ColumnType` (by derived variant order). -/
def ctMax (a b : ColumnType) : ColumnType :=
  if a.toNat ≤ b.toNat then b else a

/-! ## Numeric parsing

`min_column_type` calls `value.parse::<i64>()` and `value.parse::<f64>()`.
We model Rust's integer parsing exactly (optional sign, one or more ASCII
digits, value within range) and f64 parsing syntactically (Rust's grammar:
optional sign, then `inf`/`infinity`/`nan` case-insensitively, or a decimal
mantissa with at most one dot and at least one digit, with an optional
exponent). -/

/-- Decimal value of a digit list, or `none` if empty or a non-digit occurs. -/
def digitsVal (cs : List Char) : Option Nat :=
  if cs ≠ [] ∧ cs.all Char.isDigit then
    some (cs.foldl (fun a c => a * 10 + (c.toNat - '0'.toNat)) 0)
  else
    none

/-- Magnitude and sign of an integer literal: `+`/`-`/no sign then digits. -/
def signedDigits (cs : List Char) : Option (Bool × Nat) :=
  match cs with
  | '+' :: rest => (digitsVal rest).map (fun v => (false, v))
  | '-' :: rest => (digitsVal rest).map (fun v => (true, v))
  | rest => (digitsVal rest).map (fun v => (false, v))

/-- `s.parse::<i64>().is_ok()` -/
def isI64 (s : String) : Bool :=
  match signedDigits s.data with
  | some (neg, v) => if neg then v ≤ 2 ^ 63 else v ≤ 2 ^ 63 - 1
  | none => false

/-- `s.parse::<i32>()`, as used by `value_from_str` for `ColumnType::Int`;
returns the parsed value as a mathematical integer. -/
def parseI32 (s : String) : Option Int :=
  match signedDigits s.data with
  | some (neg, v) =>
    if neg then
      if v ≤ 2 ^ 31 then some (-(v : Int)) else none
    else
      if v ≤ 2 ^ 31 - 1 then some (v : Int) else none
  | none => none

/-- Mantissa of a float literal: digits with at most one `.`, at least one
digit (`1`, `1.`, `.5`, `1.5` are all accepted; `.` alone is not). -/
def isFloatMantissa (cs : List Char) : Bool :=
  (cs.all fun c => c.isDigit || c = '.') &&
    (cs.countP (· = '.')) ≤ 1 && cs.any Char.isDigit

/-- Exponent tail of a float literal: optional sign then one or more digits. -/
def isFloatExponent (cs : List Char) : Bool :=
  match cs with
  | '+' :: rest => rest ≠ [] && rest.all Char.isDigit
  | '-' :: rest => rest ≠ [] && rest.all Char.isDigit
  | rest => rest ≠ [] && rest.all Char.isDigit

/-- Split a char list at the first `e`/`E`, if any. -/
def splitAtExp : List Char → (List Char × Option (List Char))
  | [] => ([], none)
  | c :: rest =>
    if c = 'e' ∨ c = 'E' then ([], some rest)
    else
      let (m, e) := splitAtExp rest
      (c :: m, e)

/-- `s.parse::<f64>().is_ok()`, modelled on Rust's accepted grammar. -/
def isF64Str (s : String) : Bool :=
  let cs :=
    match s.data with
    | '+' :: rest => rest
    | '-' :: rest => rest
    | rest => rest
  let lower := cs.map Char.toLower
  if lower = "inf".data ∨ lower = "infinity".data ∨ lower = "nan".data then
    true
  else
    match splitAtExp cs with
    | (mant, none) => isFloatMantissa mant
    | (mant, some ex) => isFloatMantissa mant && isFloatExponent ex

/-- `min_column_type` (`glue.rs`): the strictest column type representing a
value. -/
def minColumnType (value : String) : ColumnType :=
  if isI64 value then .int
  else if isF64Str value then .float
  else .string

/-- `column_types_from_record` (`glue.rs`). -/
def columnTypesFromRecord (record : List String) : List ColumnType :=
  record.map minColumnType

/-- `merge_column_types` (`glue.rs`): pointwise `max`, zip-truncated. -/
def mergeColumnTypes (first second : List ColumnType) : List ColumnType :=
  List.zipWith ctMax first second

/-- `determine_column_types` (`glue.rs`): fold pointwise max over all records,
starting from all-`Int`.  The `csv` reader (`flexible = false`) yields an
error for a record whose width differs from the header's, which the
`try_fold` propagates; we model that reader error as the length check.
Note the Rust `reduce_column_types(new_types, agg)` receives the accumulator
in its first parameter and the freshly read record's types via `agg`, so
`merge_column_types(&ctypes, &new_types)` merges (record types, accumulator)
in that order. -/
def determineColumnTypes (records : List (List String)) (ncols : Nat) :
    Except String (List ColumnType) :=
  records.foldlM
    (fun acc record =>
      if record.length = ncols then
        pure (mergeColumnTypes (columnTypesFromRecord record) acc)
      else
        Except.error "MalformedRecord")
    (List.replicate ncols .int)

/-! ## Values and the row codec

`gluesql::prelude::Value`, restricted to the payloads `format_value`
(`main.rs`) and `value_from_str` (`glue.rs`) actually inspect.  Integer kinds
carry a mathematical integer (the source value is already range-typed in
Rust); `F64`, `Decimal` and `Bytea` carry their textual (display) form — the
engine never does float or byte arithmetic, so such a value is identified
with the text it renders to, which abstracts Rust's formatting.  Kinds with payloads irrelevant to
`format_value` (it calls `todo!()` on them) carry no payload. -/

inductive Value where
  | Str (s : String)
  | Bool (b : Bool)
  | I8 (x : Int)
  | I16 (x : Int)
  | I32 (x : Int)
  | I64 (x : Int)
  | I128 (x : Int)
  | F64 (s : String)
  | Decimal (s : String)
  | Bytea (s : String)
  | Date
  | Timestamp
  | Time
  | Interval
  | Uuid
  | Map
  | List
  | Null
deriving DecidableEq, Repr

/-- `format_value` (`main.rs`).  Returns `none` exactly where the source hits
`todo!()`, i.e. panics. -/
def formatValue : Value → Option String
  | .Str s => some s
  | .Bool b => some (if b then "true" else "false")
  | .I8 x => some (toString x)
  | .I16 x => some (toString x)
  | .I32 x => some (toString x)
  | .I64 x => some (toString x)
  | .I128 x => some (toString x)
  | .F64 s => some s
  | .Decimal s => some s
  | .Bytea s => some s
  | .Date => none
  | .Timestamp => none
  | .Time => none
  | .Interval => none
  | .Uuid => none
  | .Map => none
  | .List => none
  | .Null => some "NULL"

/-- `value_from_str` (`glue.rs`): note the `Int` branch parses an **i32**
(`Value::I32(val.parse()?)`) even though inference used i64. -/
def valueFromStr (val : String) (typ : ColumnType) : Except String Value :=
  match typ with
  | .int =>
    match parseI32 val with
    | some x => .ok (.I32 x)
    | none => .error "ValueParseError"
  | .float =>
    if isF64Str val then .ok (.F64 val) else .error "ValueParseError"
  | .string => .ok (.Str val)

/-- `read_csv_record` (`glue.rs`): decode each field against its column type;
`rec_it.zip(col_types)` truncates at the shorter list. -/
def readCsvRecord (record : List String) (colTypes : List ColumnType) :
    Except String (List Value) :=
  (record.zip colTypes).mapM fun (s, typ) => valueFromStr s typ

/-! ## Append and scan (`glue.rs`)

`append_data` and `scan_data` go through the `csv` crate's writer/reader,
which quote and unquote fields so that writing then reading a record is the
identity on its fields.  We therefore model the backing file for these two
operations as a list of records (field lists), the first record being the
header written by `insert_schema`. -/

/-- `CsvStore::append_data`: encode every row with `format_value` and append
it after the existing lines, in input order.  A `todo!()` kind panics. -/
def appendData (file : List (List String)) (rows : List (List Value)) :
    RunResult (List (List String)) :=
  match rows.mapM (fun row => row.mapM formatValue) with
  | none => .panic
  | some encoded => .ok (file ++ encoded)

/-- `CsvStore::scan_data`: re-infer column types from the whole file, then
decode every data record, keyed by its ordinal (`enumerate`). -/
def scanData (file : List (List String)) :
    Except String (List (Nat × List Value)) :=
  match file with
  | [] => .ok []
  | header :: dataRecords =>
    (determineColumnTypes dataRecords header.length).bind fun colTypes =>
      (dataRecords.mapM fun record => readCsvRecord record colTypes).map
        fun rows => rows.enum

/-! ## The line injector (`line_injector.rs`)

`Injection::new` stably sorts the `(line number, text)` pairs
(`sort_by_key` is a stable sort) and feeds them through a queue whose head
is held in `next`; the queue together with its prepared head is just the
sorted list, popped from the front.  `LineInjector`'s state is the remaining
base lines, that queue, and the current line number; `next` consumes a base
line on *every* call that finds one, emitting the injected text instead of
the base line when the queue head's target equals the current line number,
and emitting `T::default()` (the empty string) past the end of the base when
the head's target lies elsewhere. -/

/-- State of a running `LineInjector<String, _, _>`: remaining base lines,
remaining injection queue (head = the prepared `next` entry), current line
number. -/
abbrev LIState := List String × List (Nat × String) × Nat

/-- One call to `LineInjector::next` (`next_inner` then
`increment_line_num`): the emitted item (`none` = iterator finished) and the
successor state. -/
def stepLI : LIState → Option String × LIState
  | ([], [], ln) => (none, ([], [], ln + 1))
  | ([], (m, x) :: rest, ln) =>
    if ln = m then (some x, ([], rest, ln + 1))
    else (some "", ([], (m, x) :: rest, ln + 1))
  | (l :: bs, [], ln) => (some l, (bs, [], ln + 1))
  | (l :: bs, (m, x) :: rest, ln) =>
    if ln = m then (some x, (bs, rest, ln + 1))
    else (some l, (bs, (m, x) :: rest, ln + 1))

/-- Collect the injector into a list, with `fuel` bounding the number of
`next` calls: `none` means the iterator did not finish within `fuel` calls
(for the fuel used by `insertData` below, exactly the non-terminating
case). -/
def runLI : Nat → LIState → Option (List String)
  | 0, _ => none
  | fuel + 1, s =>
    match stepLI s with
    | (none, _) => some []
    | (some l, s') => (runLI fuel s').map (l :: ·)

/-- Advance the injector by `k` calls to `next`, ignoring the emitted
items. -/
def advanceLI : Nat → LIState → LIState
  | 0, s => s
  | k + 1, s => advanceLI k (stepLI s).2

/-- Item emitted by the `(k+1)`-st call to `next`. -/
def nthOut (s : LIState) (k : Nat) : Option String :=
  (stepLI (advanceLI k s)).1

/-- Insert `x` into a list already sorted by the `Nat` key, before the first
strictly larger key (so equal keys keep their original relative order). -/
def insertByKey {α : Type} (x : Nat × α) :
    List (Nat × α) → List (Nat × α)
  | [] => [x]
  | y :: ys => if y.1 < x.1 then y :: insertByKey x ys else x :: y :: ys

/-- Stable sort by the `Nat` key: extensionally equal to Rust's
`sort_by_key` (both are stable sorts, hence produce the same list). -/
def sortByKey {α : Type} : List (Nat × α) → List (Nat × α)
  | [] => []
  | x :: xs => insertByKey x (sortByKey xs)

/-! ## Keyed insert (`CsvStore::insert_data`, `glue.rs`) -/

/-- `get_i32_key` then `get_row_num`: the key must be `Key::I32` (modelled by
taking the `i32` directly) and convert to `usize`, i.e. be non-negative. -/
def getRowNum (key : Int) : Except String Nat :=
  if key < 0 then .error "Invalid row number" else .ok key.toNat

/-- Whether the `csv` writer must quote a field (`QuoteStyle::Necessary`):
it contains the delimiter, a quote, or a record terminator. -/
def needsQuote (s : String) : Bool :=
  s.data.contains ',' || s.data.contains '"' ||
    s.data.contains '\n' || s.data.contains '\r'

/-- A field as the `csv` writer renders it: quoted (with `"` doubled) only
when necessary. -/
def csvQuoteField (s : String) : String :=
  if needsQuote s then
    "\"" ++ ((s.data.map fun c =>
      if c = '"' then "\"\"" else String.singleton c).foldl (· ++ ·) "") ++
      "\""
  else s

/-- One record as the `csv` writer renders it (before the `\n` record
terminator). -/
def csvEncodeLine (fields : List String) : String :=
  String.intercalate "," (fields.map csvQuoteField)

/-- Fuel that `insertData` gives the injector: strictly more than the output
length in every terminating run (proved below), so running out of fuel means
the Rust `for line_res in injector` loop diverges. -/
def insertFuel (fileLen : Nat) (injection : List (Nat × String)) : Nat :=
  fileLen + injection.foldl (fun a p => a + p.1 + 1) 0 + 1

/-- Propagate an `anyhow` error (`?` on an `anyhow::Result`). -/
def exceptToRun {α β : Type} (e : Except String α) (f : α → RunResult β) :
    RunResult β :=
  match e with
  | .error msg => .err msg
  | .ok a => f a

/-- Propagate a panic (`todo!()` reached while formatting). -/
def optionToRun {α β : Type} (o : Option α) (f : α → RunResult β) :
    RunResult β :=
  match o with
  | none => .panic
  | some a => f a

/-- Result of collecting the injector: not finishing within the (sufficient,
see `runLI_eq_expected`) fuel means the `for line_res in injector` loop
never ends. -/
def runToResult (o : Option (List String)) : RunResult (List String) :=
  match o with
  | none => .diverge
  | some merged => .ok merged

/-- Numbering the input rows: each key must be a non-negative `i32`. -/
def numberRows (rows : List (Int × List Value)) :
    Except String (List (Nat × List Value)) :=
  rows.mapM fun p => (getRowNum p.1).map fun n => (n, p.2)

/-- Rendering each row's values via `format_value` (panics on `todo!()`
kinds). -/
def encodeRows (rowData : List (List Value)) : Option (List (List String)) :=
  rowData.mapM fun row => row.mapM formatValue

/-- The injection built by `insert_data`: render the sorted rows through the
csv writer into a buffer, re-split the buffer into lines (`buf.lines()` — a
rendered row containing a raw `\n` inside quotes is split here, misaligning
the `zip` with the row numbers), zip the lines with the header-shifted row
numbers, and sort again (`Injection::new`). -/
def injectionOf (fieldLists : List (List String))
    (sorted : List (Nat × List Value)) : List (Nat × String) :=
  sortByKey
    ((((fieldLists.map csvEncodeLine).flatMap fun l => splitStrOn '\n' l).zip
        (sorted.map fun p => p.1 + 1)).map fun q => (q.2, q.1))

/-- `CsvStore::insert_data`: number the rows (failing on a negative key),
stably sort by ordinal, shift each ordinal by +1 for the header, build the
injection, and merge it into the existing file with `LineInjector`.  The
merged stream overwrites the file (the returned list is the file's new
contents). -/
def insertData (fileLines : List String) (rows : List (Int × List Value)) :
    RunResult (List String) :=
  exceptToRun (numberRows rows) fun numberedRows =>
    optionToRun (encodeRows ((sortByKey numberedRows).map Prod.snd))
      fun fieldLists =>
        runToResult
          (runLI
            (insertFuel fileLines.length
              (injectionOf fieldLists (sortByKey numberedRows)))
            (fileLines, injectionOf fieldLists (sortByKey numberedRows), 0))

/-! ## Keyed delete (`CsvStore::delete_data`, `glue.rs`) -/

/-- Sort a list of naturals ascending (model of `Vec::sort`). -/
def sortNats (l : List Nat) : List Nat :=
  (sortByKey (l.map fun n => (n, ()))).map fun p => p.1

/-- The copy loop of `delete_data`: `delete_row_nums` is sorted descending,
so `last()` is its minimum; while the vector is non-empty **no line is
written at all** — a line is copied to `buf` only in the `else` branch, i.e.
once every deletion target has been passed.  The position compared is the
raw file line number, with no +1 adjustment for the header. -/
def deleteLoop : List String → List Nat → Nat → List String
  | [], _, _ => []
  | l :: ls, stack, lineNum =>
    match stack.getLast? with
    | some n =>
      deleteLoop ls (if n = lineNum then stack.dropLast else stack)
        (lineNum + 1)
    | none => l :: deleteLoop ls stack (lineNum + 1)

/-- `CsvStore::delete_data`: returns `(buf, file-after)`.  The filtered
output `buf` is built in memory and **never written back**: the function
returns `Ok(())` without touching the file, so the file after the call is
the file before it. -/
def deleteData (fileLines : List String) (keys : List Int) :
    Except String (List String × List String) :=
  (keys.mapM getRowNum).map fun nums =>
    (deleteLoop fileLines ((sortNats nums).reverse) 0, fileLines)

/-! ## Identity resolution (`names.rs`)

Paths are modelled as their component lists (the `PathBuf` of
`root.extend(parts)` with slash-free parts is exactly `root ++ parts`).
Rust's `Path::extension`/`with_extension` act on the final component
(`file_name`), which is `None` when the path is empty or ends in `.` or
`..`. -/

/-- Rust `Path::extension` restricted to a file name: `none` when there is
no `.`, or when the only `.` starts the name; otherwise the part after the
last `.`. -/
def extOfFileName (s : String) : Option String :=
  let parts := splitStrOn '.' s
  if parts.length ≤ 1 then none
  else if parts.length = 2 ∧ parts.headD "" = "" then none
  else some (parts.getLastD "")

/-- Rust `Path::file_name` on a component list. -/
def fileNameOf (path : List String) : Option String :=
  match path.getLast? with
  | some s => if s = ".." ∨ s = "." then none else some s
  | none => none

/-- Rust `Path::extension` on a component list. -/
def extensionOf (path : List String) : Option String :=
  (fileNameOf path).bind extOfFileName

/-- Rust `file.with_extension("")` on a file name: drop the extension and
its dot, if any. -/
def dropExtension (s : String) : String :=
  match extOfFileName s with
  | some ext => strDropRight s (ext.length + 1)
  | none => s

/-- `with_extension("")` on a component list (rewrites the final
component). -/
def pathDropExtension (path : List String) : List String :=
  match fileNameOf path with
  | some _ => path.dropLast ++ [dropExtension (path.getLastD "")]
  | none => path

/-- `TablePath::try_new` (`names.rs`): reject a non-`csv` extension, then
drop the extension. -/
def tablePathTryNew (path : List String) : Except String (List String) :=
  match extensionOf path with
  | some ext =>
    if ext ≠ "csv" then .error "table path with non-csv extension"
    else .ok (pathDropExtension path)
  | none => .ok (pathDropExtension path)

/-- `TryFrom<TableName> for TablePath`: `path = root.extend(parts)` then
`TablePath::try_new`.  No containment, traversal or canonicalization check
is performed. -/
def nameToPath (root parts : List String) : Except String (List String) :=
  tablePathTryNew (root ++ parts)

/-- `TryFrom<TablePath> for TableName`: `strip_prefix(root)` is a literal
component-prefix test; each remaining component must be a `Normal`
component (`.`/`..` are `CurDir`/`ParentDir` and fail). -/
def pathToName (root path : List String) : Except String (List String) :=
  if root.isPrefixOf path then
    (path.drop root.length).mapM fun c =>
      if c = "." ∨ c = ".." then
        Except.error "Unexpected path component"
      else
        Except.ok c
  else
    .error "path is not in data directory"

/-- name → path → name. -/
def roundTripName (root parts : List String) : Except String (List String) :=
  (nameToPath root parts).bind (pathToName root)

/-- Lexical normalization of a component list (the effect of
`canonicalize` on `..`/`.` segments, symlinks aside). -/
def normalizeComps (path : List String) : List String :=
  path.foldl
    (fun acc c =>
      if c = ".." then acc.dropLast else if c = "." then acc else acc ++ [c])
    []

/-- The canonicalized path stays below the (canonicalized) root. -/
def isDescendant (root path : List String) : Bool :=
  root.isPrefixOf (normalizeComps path)

/-! ## Characterizing the injector output

For an injection queue whose targets are strictly increasing and all at or
beyond the current line number, the merged stream is fully described
positionally: position `p` holds the injected text targeted at `p` if there
is one, otherwise the base line at offset `p` while the base lasts,
otherwise a blank, and the stream ends at
`max (line + base length) (largest target + 1)`. -/

/-- Text injected at absolute position `p`, if any. -/
def injLookup (p : Nat) : List (Nat × String) → Option String
  | [] => none
  | (m, x) :: rest => if p = m then some x else injLookup p rest

/-- `largest target + 1` over the queue (0 when empty). -/
def maxTargetSucc (inj : List (Nat × String)) : Nat :=
  inj.foldl (fun acc p => max acc (p.1 + 1)) 0

/-- Absolute position at which the merged stream ends. -/
def endPosLI (base : List String) (inj : List (Nat × String)) (ln : Nat) :
    Nat :=
  inj.foldl (fun acc p => max acc (p.1 + 1)) (ln + base.length)

/-- The predicted output of the injector from state `(base, inj, ln)`. -/
def expectedLI (base : List String) (inj : List (Nat × String)) (ln : Nat) :
    List String :=
  (List.range (endPosLI base inj ln - ln)).map fun i =>
    match injLookup (ln + i) inj with
    | some x => x
    | none => if i < base.length then base.getD i "" else ""

/-- Invariant of a well-behaved injector state: strictly increasing targets,
none of them already passed. -/
def InjInv (inj : List (Nat × String)) (ln : Nat) : Prop :=
  inj.Pairwise (fun p q => p.1 < q.1) ∧ ∀ p ∈ inj, ln ≤ p.1

/-- The iterator is finite: some finite number of `next` calls collects it. -/
def Terminates (s : LIState) : Prop :=
  ∃ fuel out, runLI fuel s = some out

/-- Two adjacent queue entries target the same line. -/
def AdjDup (inj : List (Nat × String)) : Prop :=
  ∃ pre m x y suf, inj = pre ++ (m, x) :: (m, y) :: suf

/-- The queue head's target was already passed: it can never fire again and
no later entry is ever reached. -/
def Blocked (inj : List (Nat × String)) (ln : Nat) : Prop :=
  ∃ m x rest, inj = (m, x) :: rest ∧ m < ln

/-- Invariant of a run whose injection contained a duplicate target (`M`
bounds `target + 1` over the queue): the queue is either already blocked or
still sorted, not yet passed, and still containing an adjacent duplicate.
Either way it never empties. -/
def DupState (M : Nat) (inj : List (Nat × String)) (ln : Nat) : Prop :=
  (∀ p ∈ inj, p.1 + 1 ≤ M) ∧
    (Blocked inj ln ∨
      (AdjDup inj ∧ inj.Pairwise (fun p q => p.1 ≤ q.1) ∧ ∀ p ∈ inj, ln ≤ p.1))

/-! # Theorems -/

/-! ## Injector lemmas -/

theorem foldl_max_eq (inj : List (Nat × String)) (a : Nat) :
    inj.foldl (fun acc p => max acc (p.1 + 1)) a = max a (maxTargetSucc inj) := by
  induction inj generalizing a with
  | nil => simp [maxTargetSucc]
  | cons q t ih =>
    simp only [maxTargetSucc, List.foldl_cons] at *
    rw [ih, ih (max 0 (q.1 + 1))]
    omega

theorem endPosLI_eq (base : List String) (inj : List (Nat × String))
    (ln : Nat) :
    endPosLI base inj ln = max (ln + base.length) (maxTargetSucc inj) :=
  foldl_max_eq inj _

theorem le_maxTargetSucc {q : Nat × String} {inj : List (Nat × String)}
    (h : q ∈ inj) : q.1 + 1 ≤ maxTargetSucc inj := by
  induction inj with
  | nil => cases h
  | cons p t ih =>
    have : maxTargetSucc (p :: t) = max (max 0 (p.1 + 1)) (maxTargetSucc t) := by
      simp only [maxTargetSucc, List.foldl_cons]
      exact foldl_max_eq t _
    rcases List.mem_cons.mp h with rfl | hmem
    · omega
    · have := ih hmem; omega

theorem injLookup_eq_none {inj : List (Nat × String)} {p : Nat}
    (h : ∀ q ∈ inj, p ≠ q.1) : injLookup p inj = none := by
  induction inj with
  | nil => rfl
  | cons q t ih =>
    simp only [injLookup, if_neg (h q (List.mem_cons_self q t))]
    exact ih fun r hr => h r (List.mem_cons_of_mem q hr)

/-- Emitting a line that is not an injection target: the head of the base
(or a blank) comes off, everything else shifts by one position. -/
theorem expectedLI_cons_skip (base : List String) (inj : List (Nat × String))
    (ln : Nat) (hlook : injLookup ln inj = none)
    (hE : ln + 1 ≤ endPosLI base inj ln) :
    expectedLI base inj ln = base.headD "" :: expectedLI base.tail inj (ln + 1) := by
  have hEeq : endPosLI base inj ln = endPosLI base.tail inj (ln + 1) := by
    rw [endPosLI_eq, endPosLI_eq]
    rw [endPosLI_eq] at hE
    cases base with
    | nil => simp only [List.length_nil, List.tail_nil] at *; omega
    | cons l bs => simp only [List.length_cons, List.tail_cons]; omega
  have hlen : endPosLI base inj ln - ln =
      (endPosLI base.tail inj (ln + 1) - (ln + 1)) + 1 := by
    rw [← hEeq]; omega
  rw [expectedLI, hlen, List.range_succ_eq_map, List.map_cons, List.map_map]
  congr 1
  · simp only [Nat.add_zero, hlook]
    cases base <;> simp
  · rw [expectedLI]
    apply List.map_congr_left
    intro i _
    simp only [Function.comp_apply, Nat.succ_eq_add_one]
    have hidx : ln + (i + 1) = ln + 1 + i := by omega
    rw [hidx]
    cases hli : injLookup (ln + 1 + i) inj with
    | some y => simp [hli]
    | none =>
      simp only [hli]
      cases base with
      | nil => simp
      | cons l bs =>
        simp only [List.tail_cons, List.length_cons, List.getD_cons_succ,
          Nat.add_lt_add_iff_right]

/-- Emitting an injected line: the head of the queue comes off, and a base
line (if any) is consumed and dropped with it. -/
theorem expectedLI_cons_hit (base : List String) (m : Nat) (x : String)
    (rest : List (Nat × String)) :
    expectedLI base ((m, x) :: rest) m = x :: expectedLI base.tail rest (m + 1) := by
  have hmax : maxTargetSucc ((m, x) :: rest) =
      max (max 0 (m + 1)) (maxTargetSucc rest) := by
    simp only [maxTargetSucc, List.foldl_cons]
    exact foldl_max_eq rest _
  have hEeq : endPosLI base ((m, x) :: rest) m =
      endPosLI base.tail rest (m + 1) := by
    rw [endPosLI_eq, endPosLI_eq, hmax]
    cases base with
    | nil => simp only [List.length_nil, List.tail_nil]; omega
    | cons l bs => simp only [List.length_cons, List.tail_cons]; omega
  have hge : m + 1 ≤ endPosLI base ((m, x) :: rest) m := by
    rw [endPosLI_eq, hmax]; omega
  have hlen : endPosLI base ((m, x) :: rest) m - m =
      (endPosLI base.tail rest (m + 1) - (m + 1)) + 1 := by
    rw [← hEeq]; omega
  rw [expectedLI, hlen, List.range_succ_eq_map, List.map_cons, List.map_map]
  congr 1
  · simp [injLookup]
  · rw [expectedLI]
    apply List.map_congr_left
    intro i _
    simp only [Function.comp_apply, Nat.succ_eq_add_one]
    have hidx : m + (i + 1) = m + 1 + i := by omega
    rw [hidx]
    have hne : m + 1 + i ≠ m := by omega
    simp only [injLookup, if_neg hne]
    cases hli : injLookup (m + 1 + i) rest with
    | some y => simp [hli]
    | none =>
      simp only [hli]
      cases base with
      | nil => simp
      | cons l bs =>
        simp only [List.tail_cons, List.length_cons, List.getD_cons_succ,
          Nat.add_lt_add_iff_right]

/-- One unfolding of `runLI`. -/
theorem runLI_succ (fuel : Nat) (s : LIState) :
    runLI (fuel + 1) s =
      match stepLI s with
      | (none, _) => some []
      | (some l, s') => (runLI fuel s').map (l :: ·) := rfl

theorem runLI_step_some (fuel : Nat) (s : LIState) (l : String)
    (s' : LIState) (h : stepLI s = (some l, s')) :
    runLI (fuel + 1) s = (runLI fuel s').map (l :: ·) := by
  rw [runLI_succ, h]

/-- Main characterization: from a state satisfying the invariant, the
injector terminates and emits exactly the predicted output, given fuel
beyond the predicted length. -/
theorem runLI_eq_expected (fuel : Nat) :
    ∀ (base : List String) (inj : List (Nat × String)) (ln : Nat),
      InjInv inj ln → endPosLI base inj ln - ln < fuel →
      runLI fuel (base, inj, ln) = some (expectedLI base inj ln) := by
  induction fuel with
  | zero => intro base inj ln _ h; omega
  | succ fuel ih =>
    intro base inj ln hinv hfuel
    obtain ⟨hpw, hge⟩ := hinv
    match base, inj with
    | [], [] =>
      rw [runLI_succ]
      simp [stepLI, expectedLI, endPosLI]
    | [], (m, x) :: rest =>
      obtain ⟨hhead, hpwrest⟩ := List.pairwise_cons.mp hpw
      rcases Nat.eq_or_lt_of_le (hge (m, x) (List.mem_cons_self _ _)) with heq | hlt
      · subst heq
        have hstep : stepLI ([], (ln, x) :: rest, ln) =
            (some x, ([], rest, ln + 1)) := by simp [stepLI]
        rw [runLI_step_some fuel _ _ _ hstep]
        have hrest1 : ∀ q ∈ rest, ln + 1 ≤ q.1 := fun q hq => hhead q hq
        have hbound : endPosLI [] rest (ln + 1) - (ln + 1) < fuel := by
          rw [endPosLI_eq] at hfuel ⊢
          have hmax : maxTargetSucc ((ln, x) :: rest) =
              max (max 0 (ln + 1)) (maxTargetSucc rest) := by
            simp only [maxTargetSucc, List.foldl_cons]
            exact foldl_max_eq rest _
          rw [hmax] at hfuel
          simp only [List.length_nil] at hfuel ⊢
          omega
        rw [ih [] rest (ln + 1) ⟨hpwrest, hrest1⟩ hbound]
        rw [expectedLI_cons_hit [] ln x rest]
        rfl
      · have hne : ln ≠ m := by omega
        have hstep : stepLI ([], (m, x) :: rest, ln) =
            (some "", ([], (m, x) :: rest, ln + 1)) := by
          simp [stepLI, hne]
        rw [runLI_step_some fuel _ _ _ hstep]
        have hlook : injLookup ln ((m, x) :: rest) = none := by
          apply injLookup_eq_none
          intro q hq
          rcases List.mem_cons.mp hq with rfl | hq'
          · omega
          · have := hhead q hq'; omega
        have hge1 : ∀ q ∈ (m, x) :: rest, ln + 1 ≤ q.1 := by
          intro q hq
          rcases List.mem_cons.mp hq with rfl | hq'
          · omega
          · have := hhead q hq'; omega
        have hEge : ln + 1 ≤ endPosLI [] ((m, x) :: rest) ln := by
          rw [endPosLI_eq]
          have := le_maxTargetSucc (List.mem_cons_self (m, x) rest)
          omega
        have hEeq : endPosLI [] ((m, x) :: rest) ln =
            endPosLI [] ((m, x) :: rest) (ln + 1) := by
          rw [endPosLI_eq, endPosLI_eq]
          have h1 := le_maxTargetSucc (List.mem_cons_self (m, x) rest)
          simp only [List.length_nil]
          simp only at h1
          omega
        have hbound : endPosLI [] ((m, x) :: rest) (ln + 1) - (ln + 1) < fuel := by
          rw [← hEeq]; omega
        rw [ih [] ((m, x) :: rest) (ln + 1) ⟨hpw, hge1⟩ hbound]
        rw [expectedLI_cons_skip [] ((m, x) :: rest) ln hlook hEge]
        rfl
    | l :: bs, [] =>
      have hstep : stepLI (l :: bs, [], ln) = (some l, (bs, [], ln + 1)) := by
        simp [stepLI]
      rw [runLI_step_some fuel _ _ _ hstep]
      have hbound : endPosLI bs [] (ln + 1) - (ln + 1) < fuel := by
        rw [endPosLI_eq] at hfuel ⊢
        simp only [List.length_cons] at hfuel
        omega
      rw [ih bs [] (ln + 1) ⟨List.Pairwise.nil, by simp⟩ hbound]
      rw [expectedLI_cons_skip (l :: bs) [] ln rfl
        (by rw [endPosLI_eq]; simp only [List.length_cons]; omega)]
      rfl
    | l :: bs, (m, x) :: rest =>
      obtain ⟨hhead, hpwrest⟩ := List.pairwise_cons.mp hpw
      rcases Nat.eq_or_lt_of_le (hge (m, x) (List.mem_cons_self _ _)) with heq | hlt
      · subst heq
        have hstep : stepLI (l :: bs, (ln, x) :: rest, ln) =
            (some x, (bs, rest, ln + 1)) := by simp [stepLI]
        rw [runLI_step_some fuel _ _ _ hstep]
        have hrest1 : ∀ q ∈ rest, ln + 1 ≤ q.1 := fun q hq => hhead q hq
        have hbound : endPosLI bs rest (ln + 1) - (ln + 1) < fuel := by
          rw [endPosLI_eq] at hfuel ⊢
          have hmax : maxTargetSucc ((ln, x) :: rest) =
              max (max 0 (ln + 1)) (maxTargetSucc rest) := by
            simp only [maxTargetSucc, List.foldl_cons]
            exact foldl_max_eq rest _
          simp only [List.length_cons] at hfuel
          rw [hmax] at hfuel
          omega
        rw [ih bs rest (ln + 1) ⟨hpwrest, hrest1⟩ hbound]
        rw [expectedLI_cons_hit (l :: bs) ln x rest]
        rfl
      · have hne : ln ≠ m := by omega
        have hstep : stepLI (l :: bs, (m, x) :: rest, ln) =
            (some l, (bs, (m, x) :: rest, ln + 1)) := by
          simp [stepLI, hne]
        rw [runLI_step_some fuel _ _ _ hstep]
        have hlook : injLookup ln ((m, x) :: rest) = none := by
          apply injLookup_eq_none
          intro q hq
          rcases List.mem_cons.mp hq with rfl | hq'
          · omega
          · have := hhead q hq'; omega
        have hge1 : ∀ q ∈ (m, x) :: rest, ln + 1 ≤ q.1 := by
          intro q hq
          rcases List.mem_cons.mp hq with rfl | hq'
          · omega
          · have := hhead q hq'; omega
        have hbound : endPosLI bs ((m, x) :: rest) (ln + 1) - (ln + 1) < fuel := by
          rw [endPosLI_eq] at hfuel ⊢
          simp only [List.length_cons] at hfuel
          omega
        rw [ih bs ((m, x) :: rest) (ln + 1) ⟨hpw, hge1⟩ hbound]
        rw [expectedLI_cons_skip (l :: bs) ((m, x) :: rest) ln hlook
          (by rw [endPosLI_eq]; simp only [List.length_cons]; omega)]
        rfl

/-! ## Non-termination on duplicate targets -/

theorem advanceLI_succ_outer (k : Nat) (s : LIState) :
    advanceLI (k + 1) s = (stepLI (advanceLI k s)).2 := by
  induction k generalizing s with
  | zero => rfl
  | succ k ih =>
    show advanceLI (k + 1) (stepLI s).2 = _
    rw [ih (stepLI s).2]
    rfl

/-- While the queue is non-empty, `next` always yields an item. -/
theorem stepLI_fst_isSome (base : List String) (inj : List (Nat × String))
    (ln : Nat) (h : inj ≠ []) : (stepLI (base, inj, ln)).1 ≠ none := by
  match base, inj with
  | [], [] => exact absurd rfl h
  | [], (m, x) :: rest =>
    by_cases hln : ln = m <;> simp [stepLI, hln]
  | l :: bs, [] => simp [stepLI]
  | l :: bs, (m, x) :: rest =>
    by_cases hln : ln = m <;> simp [stepLI, hln]

/-- A blocked queue never changes: the head's target is behind the line
counter, so each step just passes a base line (or a blank) through. -/
theorem stepLI_blocked (base : List String) (inj : List (Nat × String))
    (ln : Nat) (h : Blocked inj ln) :
    stepLI (base, inj, ln) = (some (base.headD ""), (base.tail, inj, ln + 1)) := by
  obtain ⟨m, x, rest, rfl, hlt⟩ := h
  have hne : ln ≠ m := by omega
  cases base <;> simp [stepLI, hne]

/-- A non-blocked `DupState` queue is a cons whose head key is `≥ ln`. -/
theorem dupState_queue_cons (inj : List (Nat × String)) :
    AdjDup inj → ∃ k z tail, inj = (k, z) :: tail := by
  rintro ⟨pre, m, x, y, suf, rfl⟩
  cases pre with
  | nil => exact ⟨m, x, (m, y) :: suf, rfl⟩
  | cons q pre' => exact ⟨q.1, q.2, pre' ++ (m, x) :: (m, y) :: suf, rfl⟩

/-- `DupState` is preserved by one step, which also consumes the head of the
base. -/
theorem dupState_step (M : Nat) (base : List String)
    (inj : List (Nat × String)) (ln : Nat) (h : DupState M inj ln) :
    ∃ inj', (stepLI (base, inj, ln)).2 = (base.tail, inj', ln + 1) ∧
      DupState M inj' (ln + 1) := by
  obtain ⟨hM, hblocked | ⟨hdup, hsort, hge⟩⟩ := h
  · refine ⟨inj, ?_, hM, Or.inl ?_⟩
    · rw [stepLI_blocked base inj ln hblocked]
    · obtain ⟨m, x, rest, rfl, hlt⟩ := hblocked
      exact ⟨m, x, rest, rfl, by omega⟩
  · obtain ⟨k, z, tail, rfl⟩ := dupState_queue_cons inj hdup
    obtain ⟨hhead, hsorttail⟩ := List.pairwise_cons.mp hsort
    have hlnk : ln ≤ k := hge (k, z) (List.mem_cons_self _ _)
    by_cases hln : ln = k
    · -- the head fires and is popped
      subst hln
      have hstep : (stepLI (base, (ln, z) :: tail, ln)).2 = (base.tail, tail, ln + 1) := by
        cases base <;> simp [stepLI]
      refine ⟨tail, hstep, fun p hp => hM p (List.mem_cons_of_mem _ hp), ?_⟩
      -- where did the duplicate pair sit?
      obtain ⟨pre, m, x, y, suf, heq⟩ := hdup
      cases pre with
      | nil =>
        -- head duplicated: tail starts with the second copy, now blocked
        obtain ⟨h1, h2⟩ := List.cons_eq_cons.mp heq
        refine Or.inl ⟨m, y, suf, ?_, ?_⟩
        · rw [h2]
        · cases h1; omega
      | cons q pre' =>
        obtain ⟨h1, h2⟩ := List.cons_eq_cons.mp heq
        -- the duplicate pair lives in `tail`
        have hadj : AdjDup tail := ⟨pre', m, x, y, suf, h2⟩
        obtain ⟨k', z', tail', htl⟩ := dupState_queue_cons tail hadj
        have hk' : ln ≤ k' := hhead (k', z') (htl ▸ List.mem_cons_self _ _)
        rcases Nat.eq_or_lt_of_le hk' with heqk | hltk
        · exact Or.inl ⟨k', z', tail', htl, by omega⟩
        · refine Or.inr ⟨hadj, hsorttail, ?_⟩
          intro p hp
          rw [htl] at hp hsorttail
          rcases List.mem_cons.mp hp with rfl | hp'
          · omega
          · have := (List.pairwise_cons.mp hsorttail).1 p hp'
            omega
    · -- the head's target is still ahead: the queue is untouched
      have hlt : ln < k := by omega
      have hstep : (stepLI (base, (k, z) :: tail, ln)).2 =
          (base.tail, (k, z) :: tail, ln + 1) := by
        cases base <;> simp [stepLI, hln]
      refine ⟨(k, z) :: tail, hstep, hM, Or.inr ⟨hdup, hsort, ?_⟩⟩
      intro p hp
      rcases List.mem_cons.mp hp with rfl | hp'
      · omega
      · have := hhead p hp'
        omega

/-- After `k` steps from a `DupState`, the base has lost its first `k`
elements, the line counter has advanced by `k`, and the queue is still a
`DupState` queue. -/
theorem dupState_advance (M : Nat) (base : List String)
    (inj : List (Nat × String)) (ln : Nat) (h : DupState M inj ln) (k : Nat) :
    ∃ inj', advanceLI k (base, inj, ln) = (base.drop k, inj', ln + k) ∧
      DupState M inj' (ln + k) := by
  induction k with
  | zero => exact ⟨inj, rfl, h⟩
  | succ k ih =>
    obtain ⟨inj', hadv, hdup⟩ := ih
    obtain ⟨inj'', hstep, hdup'⟩ := dupState_step M (base.drop k) inj' (ln + k) hdup
    refine ⟨inj'', ?_, by rw [show ln + (k + 1) = ln + k + 1 from rfl]; exact hdup'⟩
    rw [advanceLI_succ_outer, hadv, hstep, List.tail_drop]
    rfl

/-- A `DupState` queue is never empty. -/
theorem dupState_ne_nil (M : Nat) (inj : List (Nat × String)) (ln : Nat)
    (h : DupState M inj ln) : inj ≠ [] := by
  obtain ⟨_, hblocked | ⟨hdup, _, _⟩⟩ := h
  · obtain ⟨m, x, rest, rfl, _⟩ := hblocked
    simp
  · obtain ⟨k, z, tail, rfl⟩ := dupState_queue_cons inj hdup
    simp

/-- If every call to `next` yields an item, collecting never finishes. -/
theorem runLI_none_of_total (s : LIState)
    (h : ∀ k, (stepLI (advanceLI k s)).1 ≠ none) :
    ∀ fuel, runLI fuel s = none := by
  intro fuel
  induction fuel generalizing s with
  | zero => rfl
  | succ fuel ih =>
    have h0 := h 0
    rw [show advanceLI 0 s = s from rfl] at h0
    rw [runLI_succ]
    rcases hs : stepLI s with ⟨o, s'⟩
    rcases o with _ | l
    · rw [hs] at h0
      exact absurd rfl h0
    · have h' : ∀ k, (stepLI (advanceLI k s')).1 ≠ none := by
        intro k
        have hk := h (k + 1)
        have heq : advanceLI (k + 1) s = advanceLI k s' := by
          show advanceLI k (stepLI s).2 = advanceLI k s'
          rw [hs]
        rwa [heq] at hk
      show (runLI fuel s').map (l :: ·) = none
      rw [ih s' h']
      rfl

/-- From a `DupState`, the injector runs forever. -/
theorem dupState_run_forever (M : Nat) (base : List String)
    (inj : List (Nat × String)) (ln : Nat) (h : DupState M inj ln) :
    ∀ fuel, runLI fuel (base, inj, ln) = none := by
  apply runLI_none_of_total
  intro k
  obtain ⟨inj', hadv, hdup⟩ := dupState_advance M base inj ln h k
  rw [hadv]
  exact stepLI_fst_isSome _ _ _ (dupState_ne_nil M inj' (ln + k) hdup)

/-- From a `DupState`, once the base is exhausted and every target is
passed, every emitted line is the blank default. -/
theorem dupState_blanks (M : Nat) (base : List String)
    (inj : List (Nat × String)) (ln : Nat) (h : DupState M inj ln) (k : Nat)
    (hbase : base.length ≤ k) (hM : M ≤ ln + k) :
    nthOut (base, inj, ln) k = some "" := by
  obtain ⟨inj', hadv, hdup⟩ := dupState_advance M base inj ln h k
  rw [nthOut, hadv]
  have hdrop : base.drop k = [] := List.drop_eq_nil_of_le hbase
  obtain ⟨hM', hblocked | ⟨hdup', _, hge⟩⟩ := hdup
  · rw [hdrop, stepLI_blocked [] inj' (ln + k) hblocked]
    rfl
  · obtain ⟨k', z', tail', rfl⟩ := dupState_queue_cons inj' hdup'
    have h1 := hM' (k', z') (List.mem_cons_self _ _)
    have h2 := hge (k', z') (List.mem_cons_self _ _)
    omega

/-! ## The stable sort -/

theorem insertByKey_perm {α : Type} (x : Nat × α) (l : List (Nat × α)) :
    (insertByKey x l).Perm (x :: l) := by
  induction l with
  | nil => exact List.Perm.refl _
  | cons y ys ih =>
    rw [insertByKey]
    by_cases h : y.1 < x.1
    · rw [if_pos h]
      exact (ih.cons y).trans (List.Perm.swap x y ys)
    · rw [if_neg h]

theorem sortByKey_perm {α : Type} (l : List (Nat × α)) :
    (sortByKey l).Perm l := by
  induction l with
  | nil => exact List.Perm.refl _
  | cons x xs ih =>
    exact (insertByKey_perm x (sortByKey xs)).trans (ih.cons x)

theorem insertByKey_sorted {α : Type} (x : Nat × α) (l : List (Nat × α))
    (h : l.Pairwise (fun p q => p.1 ≤ q.1)) :
    (insertByKey x l).Pairwise (fun p q => p.1 ≤ q.1) := by
  induction l with
  | nil => simp [insertByKey]
  | cons y ys ih =>
    obtain ⟨hy, hys⟩ := List.pairwise_cons.mp h
    rw [insertByKey]
    by_cases hlt : y.1 < x.1
    · rw [if_pos hlt]
      refine List.pairwise_cons.mpr ⟨?_, ih hys⟩
      intro p hp
      have := (insertByKey_perm x ys).mem_iff.mp hp
      rcases List.mem_cons.mp this with rfl | hmem
      · omega
      · exact hy p hmem
    · rw [if_neg hlt]
      refine List.pairwise_cons.mpr ⟨?_, h⟩
      intro p hp
      rcases List.mem_cons.mp hp with rfl | hmem
      · omega
      · have := hy p hmem
        omega

theorem sortByKey_sorted {α : Type} (l : List (Nat × α)) :
    (sortByKey l).Pairwise (fun p q => p.1 ≤ q.1) := by
  induction l with
  | nil => simp [sortByKey]
  | cons x xs ih => exact insertByKey_sorted x (sortByKey xs) ih

theorem maxTargetSucc_le {inj : List (Nat × String)} {c : Nat} :
    maxTargetSucc inj ≤ c ↔ ∀ p ∈ inj, p.1 + 1 ≤ c := by
  induction inj with
  | nil => simp [maxTargetSucc]
  | cons q t ih =>
    have hfold : maxTargetSucc (q :: t) = max (max 0 (q.1 + 1)) (maxTargetSucc t) := by
      simp only [maxTargetSucc, List.foldl_cons]
      exact foldl_max_eq t _
    rw [hfold]
    constructor
    · intro h p hp
      rcases List.mem_cons.mp hp with rfl | hmem
      · omega
      · have := ih.mp (by omega) p hmem
        omega
    · intro h
      have h1 := h q (List.mem_cons_self _ _)
      have h2 := ih.mpr fun p hp => h p (List.mem_cons_of_mem _ hp)
      omega

theorem maxTargetSucc_congr {inj inj' : List (Nat × String)}
    (h : ∀ p, p ∈ inj ↔ p ∈ inj') : maxTargetSucc inj = maxTargetSucc inj' := by
  apply Nat.le_antisymm
  · exact maxTargetSucc_le.mpr fun p hp =>
      le_maxTargetSucc ((h p).mp hp)
  · exact maxTargetSucc_le.mpr fun p hp =>
      le_maxTargetSucc ((h p).mpr hp)

theorem maxTargetSucc_sortByKey (l : List (Nat × String)) :
    maxTargetSucc (sortByKey l) = maxTargetSucc l :=
  maxTargetSucc_congr fun _ => (sortByKey_perm l).mem_iff

/-- A sorted list whose keys repeat has two *adjacent* equal keys. -/
theorem adjDup_of_sorted_dup (l : List (Nat × String))
    (hsort : l.Pairwise (fun p q => p.1 ≤ q.1))
    (hdup : ¬ (l.map Prod.fst).Nodup) : AdjDup l := by
  induction l with
  | nil => exact absurd List.nodup_nil hdup
  | cons x xs ih =>
    obtain ⟨hx, hxs⟩ := List.pairwise_cons.mp hsort
    rw [List.map_cons, List.nodup_cons] at hdup
    push_neg at hdup
    by_cases hmem : x.1 ∈ xs.map Prod.fst
    · obtain ⟨y, hy, hyx⟩ := List.mem_map.mp hmem
      cases xs with
      | nil => cases hy
      | cons z zs =>
        have hxz : x.1 ≤ z.1 := hx z (List.mem_cons_self _ _)
        have hzy : z.1 ≤ y.1 := by
          rcases List.mem_cons.mp hy with rfl | hyzs
          · omega
          · exact (List.pairwise_cons.mp hxs).1 y hyzs
        have hzx : z.1 = x.1 := by omega
        exact ⟨[], x.1, x.2, z.2, zs, by
          rw [show ((x.1, x.2) : Nat × String) = x from rfl]
          rw [show ((x.1, z.2) : Nat × String) = z from by rw [← hzx]]
          rfl⟩
    · have : ¬ (xs.map Prod.fst).Nodup := fun hn => hdup hmem hn
      obtain ⟨pre, m, a, b, suf, heq⟩ := ih hxs this
      exact ⟨x :: pre, m, a, b, suf, by rw [heq]; rfl⟩

/-- Sorted with pairwise-distinct keys means strictly sorted. -/
theorem pairwise_lt_of_sorted_nodup (l : List (Nat × String))
    (hsort : l.Pairwise (fun p q => p.1 ≤ q.1))
    (hnd : (l.map Prod.fst).Nodup) :
    l.Pairwise (fun p q => p.1 < q.1) := by
  have hne : l.Pairwise (fun p q => p.1 ≠ q.1) := by
    have := (List.pairwise_map.mp hnd)
    exact this.imp fun h => h
  exact (hsort.and hne).imp fun ⟨hle, hneq⟩ => by omega

theorem headD_drop (l : List String) (n : Nat) (d : String) :
    (l.drop n).headD d = l.getD n d := by
  rw [List.headD_eq_head?, List.head?_drop, List.getD_eq_getElem?_getD]

theorem expectedLI_length (base : List String) (inj : List (Nat × String))
    (ln : Nat) : (expectedLI base inj ln).length = endPosLI base inj ln - ln := by
  simp [expectedLI]

/-! ## Claim theorems: the line injector -/

/-- C10: for a finite base stream, the `LineInjector` iterator is finite iff
the injected line numbers are pairwise distinct; with distinct targets it
yields exactly `max (base length) (largest target + 1)` lines, and with a
duplicate target it emits blank default lines forever once the base stream
(and the passed targets) are exhausted. -/
theorem injector_finite_iff_distinct (base : List String)
    (lst : List (Nat × String)) :
    (Terminates (base, sortByKey lst, 0) ↔ (lst.map Prod.fst).Nodup) ∧
    ((lst.map Prod.fst).Nodup →
      ∃ out, runLI (endPosLI base (sortByKey lst) 0 + 1)
          (base, sortByKey lst, 0) = some out ∧
        out.length = max base.length (maxTargetSucc lst)) ∧
    (¬ (lst.map Prod.fst).Nodup →
      ∀ k, base.length ≤ k → maxTargetSucc lst ≤ k →
        nthOut (base, sortByKey lst, 0) k = some "") := by
  have hperm : ((sortByKey lst).map Prod.fst).Perm (lst.map Prod.fst) :=
    (sortByKey_perm lst).map Prod.fst
  have hrun_of_nodup : (lst.map Prod.fst).Nodup →
      runLI (endPosLI base (sortByKey lst) 0 + 1) (base, sortByKey lst, 0) =
        some (expectedLI base (sortByKey lst) 0) := by
    intro hnd
    apply runLI_eq_expected
    · exact ⟨pairwise_lt_of_sorted_nodup _ (sortByKey_sorted lst)
        (hperm.nodup_iff.mpr hnd), fun p _ => Nat.zero_le _⟩
    · omega
  have hdup_state : ¬ (lst.map Prod.fst).Nodup →
      DupState (maxTargetSucc lst) (sortByKey lst) 0 := by
    intro hnd
    refine ⟨?_, Or.inr ⟨?_, sortByKey_sorted lst, fun p _ => Nat.zero_le _⟩⟩
    · intro p hp
      rw [← maxTargetSucc_sortByKey]
      exact le_maxTargetSucc hp
    · exact adjDup_of_sorted_dup _ (sortByKey_sorted lst)
        fun h => hnd (hperm.nodup_iff.mp h)
  refine ⟨⟨?_, ?_⟩, ?_, ?_⟩
  · intro ⟨fuel, out, hout⟩
    by_contra hnd
    rw [dupState_run_forever _ base _ 0 (hdup_state hnd) fuel] at hout
    cases hout
  · intro hnd
    exact ⟨_, _, hrun_of_nodup hnd⟩
  · intro hnd
    refine ⟨expectedLI base (sortByKey lst) 0, hrun_of_nodup hnd, ?_⟩
    rw [expectedLI_length, endPosLI_eq, maxTargetSucc_sortByKey]
    omega
  · intro hnd k hk hM
    exact dupState_blanks _ base _ 0 (hdup_state hnd) k hk (by omega)

theorem injector_finite_iff_distinct_witness :
    (Terminates (["h"], sortByKey [(1, "a")], 0) ↔
      ([(1, "a")].map Prod.fst).Nodup) ∧
    (∃ out, runLI (endPosLI ["h"] (sortByKey [(1, "a")]) 0 + 1)
        (["h"], sortByKey [(1, "a")], 0) = some out ∧
      out.length = max ["h"].length (maxTargetSucc [(1, "a")])) ∧
    nthOut (["h"], sortByKey [(0, "a"), (0, "b")], 0) 2 = some "" :=
  ⟨(injector_finite_iff_distinct ["h"] [(1, "a")]).1,
    (injector_finite_iff_distinct ["h"] [(1, "a")]).2.1 (by decide),
    (injector_finite_iff_distinct ["h"] [(0, "a"), (0, "b")]).2.2 (by decide)
      2 (by decide) (by decide)⟩

/-- `next` on a state whose queue head does not target the current line:
the item is the head of the base (or a blank). -/
theorem stepLI_nofire (bs : List String) (m : Nat) (x : String)
    (rest : List (Nat × String)) (ln : Nat) (h : ln ≠ m) :
    stepLI (bs, (m, x) :: rest, ln) =
      (some (bs.headD ""), (bs.tail, (m, x) :: rest, ln + 1)) := by
  cases bs <;> simp [stepLI, h]

/-- `next` on a state whose queue head targets the current line: the
injected text is emitted, consuming a base line with it. -/
theorem stepLI_fire (bs : List String) (m : Nat) (x : String)
    (rest : List (Nat × String)) :
    stepLI (bs, (m, x) :: rest, m) = (some x, (bs.tail, rest, m + 1)) := by
  cases bs <;> simp [stepLI]

/-- The exact state of a run whose injection is a duplicated pair: the base
is consumed one line per step, the first copy is popped when its target is
reached, and the second copy stays in the queue forever. -/
theorem dupPair_advance (base : List String) (m : Nat) (a b : String)
    (k : Nat) :
    advanceLI k (base, [(m, a), (m, b)], 0) =
      (base.drop k, if k ≤ m then [(m, a), (m, b)] else [(m, b)], k) := by
  induction k with
  | zero => rw [if_pos (Nat.zero_le m)]; rfl
  | succ k ih =>
    rw [advanceLI_succ_outer, ih]
    rcases Nat.lt_trichotomy k m with hlt | heq | hgt
    · rw [if_pos (by omega), if_pos (by omega),
        stepLI_nofire _ _ _ _ _ (by omega), List.tail_drop]
    · rw [if_pos (by omega), if_neg (by omega), heq, stepLI_fire,
        List.tail_drop, ← heq]
    · rw [if_neg (by omega), if_neg (by omega),
        stepLI_nofire _ _ _ _ _ (by omega), List.tail_drop]

/-- C3 (amended): when two injected entries of one call target the same
line, the **earlier**-sorted entry is emitted at the target line; the
later-sorted entry is never reached, every other position carries the base
line (or a blank), and the iterator never terminates. -/
theorem duplicate_target_keeps_earlier (base : List String) (m : Nat)
    (a b : String) :
    (∀ k, nthOut (base, sortByKey [(m, a), (m, b)], 0) k =
      some (if k = m then a else base.getD k "")) ∧
    (∀ fuel, runLI fuel (base, sortByKey [(m, a), (m, b)], 0) = none) := by
  have hsort : sortByKey [(m, a), (m, b)] = [(m, a), (m, b)] := by
    simp [sortByKey, insertByKey]
  rw [hsort]
  have hnth : ∀ k, nthOut (base, [(m, a), (m, b)], 0) k =
      some (if k = m then a else base.getD k "") := by
    intro k
    rw [nthOut, dupPair_advance]
    rcases Nat.lt_trichotomy k m with hlt | heq | hgt
    · rw [if_pos (by omega), stepLI_nofire _ _ _ _ _ (by omega),
        if_neg (by omega), headD_drop]
    · rw [if_pos (by omega), heq, stepLI_fire, if_pos rfl]
    · rw [if_neg (by omega), stepLI_nofire _ _ _ _ _ (by omega),
        if_neg (by omega), headD_drop]
  refine ⟨hnth, ?_⟩
  apply runLI_none_of_total
  intro k
  have := hnth k
  rw [nthOut] at this
  rw [this]
  simp

/-! ## Claim theorems: keyed insert -/

/-- Output of a single-entry injection: replace in place within the base,
else pad with blanks and append at the target. -/
theorem expectedLI_single (base : List String) (m : Nat) (x : String) :
    expectedLI base [(m, x)] 0 =
      if m < base.length then base.set m x
      else base ++ List.replicate (m - base.length) "" ++ [x] := by
  have hmax : maxTargetSucc [(m, x)] = m + 1 := by simp [maxTargetSucc]
  have hend : endPosLI base [(m, x)] 0 = max base.length (m + 1) := by
    rw [endPosLI_eq, hmax]
    omega
  by_cases hm : m < base.length
  · rw [if_pos hm]
    apply List.ext_getElem
    · rw [expectedLI_length, hend]
      simp only [List.length_set]
      omega
    · intro i h1 h2
      simp only [expectedLI, List.getElem_map, List.getElem_range,
        Nat.zero_add, injLookup]
      have h1' : i < base.length := by
        rw [expectedLI_length, hend] at h1
        omega
      by_cases him : i = m
      · subst him
        rw [if_pos rfl, List.getElem_set_self]
      · rw [if_neg him, if_pos h1', List.getElem_set_ne fun h => him h.symm,
          List.getD_eq_getElem base "" h1']
  · rw [if_neg hm, List.append_assoc]
    apply List.ext_getElem
    · rw [expectedLI_length, hend]
      simp only [List.length_append, List.length_replicate, List.length_cons,
        List.length_nil]
      omega
    · intro i h1 h2
      simp only [expectedLI, List.getElem_map, List.getElem_range,
        Nat.zero_add, injLookup]
      have h1' : i < m + 1 := by
        rw [expectedLI_length, hend] at h1
        omega
      by_cases hib : i < base.length
      · have him : i ≠ m := by omega
        rw [if_neg him, if_pos hib, List.getElem_append_left hib,
          List.getD_eq_getElem base "" hib]
      · rw [List.getElem_append_right (by omega : base.length ≤ i)]
        by_cases him : i = m
        · rw [if_pos him, List.getElem_append_right
            (by simp only [List.length_replicate]; omega)]
          exact (List.getElem_singleton ..).symm
        · rw [if_neg him, if_neg hib, List.getElem_append_left
            (by simp only [List.length_replicate]; omega)]
          rw [List.getElem_replicate]

theorem exceptToRun_ok {α β : Type} (a : α) (f : α → RunResult β) :
    exceptToRun (.ok a) f = f a := rfl

theorem optionToRun_some {α β : Type} (a : α) (f : α → RunResult β) :
    optionToRun (some a) f = f a := rfl

theorem runToResult_some (l : List String) : runToResult (some l) = .ok l := rfl

/-- C2 (counterexample): a keyed row whose rendered text embeds a raw
newline — here the single text value `"a\nb"`, which the csv writer quotes
to `"a␤b"` — falsifies the claim: `insert_data` returns Ok, but
`buf.lines()` re-splits the quoted record into two fragments, the zip with
the row numbers truncates to the first, and the target row receives only
the corrupt unterminated-quote fragment `"a` instead of the row's
content. -/
theorem insert_rows_newline_cex :
    insertData ["id"] [((0 : Int), [Value.Str "a\nb"])] = .ok ["id", "\"a"] ∧
    (["id", "\"a"] : List String) ≠ ["id", csvEncodeLine ["a\nb"]] :=
  ⟨by decide, by decide⟩

/-- C2 (amended): a single keyed row at an ordinal within the current
number of data rows replaces exactly that data row's line and leaves every
other line byte-identical, and at an ordinal beyond the current length
blank padding lines fill each intervening position with the injected row at
its target position — **provided** the row's rendered record contains no
raw newline (hypothesis `hnl`: `buf.lines()` does not re-split it; `flds`
are the row's rendered fields).  A row whose rendered text embeds a newline
is re-split, and only a corrupt fragment reaches the target row (see the
counterexample above). -/
theorem insert_rows_replaces_or_pads (file : List String) (n : Nat)
    (row : List Value) (flds : List String)
    (hfmt : row.mapM formatValue = some flds)
    (hnl : splitStrOn '\n' (csvEncodeLine flds) = [csvEncodeLine flds]) :
    insertData file [((n : Int), row)] =
      .ok (if n + 1 < file.length
        then file.set (n + 1) (csvEncodeLine flds)
        else file ++ List.replicate (n + 1 - file.length) "" ++
          [csvEncodeLine flds]) := by
  have hn0 : ¬ ((n : Int) < 0) := Int.not_lt.mpr (Int.natCast_nonneg n)
  have hnum : numberRows [((n : Int), row)] = .ok [(n, row)] := by
    unfold numberRows getRowNum
    simp [List.mapM.loop, hn0, Int.toNat_natCast, Except.map]
  have hsort : sortByKey [(n, row)] = [(n, row)] := by
    simp [sortByKey, insertByKey]
  have henc : encodeRows ([(n, row)].map Prod.snd) = some [flds] := by
    simp only [encodeRows, List.map_cons, List.map_nil, List.mapM_cons,
      List.mapM_nil, hfmt]
    rfl
  have hinj : injectionOf [flds] [(n, row)] = [(n + 1, csvEncodeLine flds)] := by
    unfold injectionOf
    simp [hnl, sortByKey, insertByKey]
  have hinv : InjInv [(n + 1, csvEncodeLine flds)] 0 :=
    ⟨List.pairwise_singleton .., fun p _ => Nat.zero_le _⟩
  have hfuelb : endPosLI file [(n + 1, csvEncodeLine flds)] 0 - 0 <
      insertFuel file.length [(n + 1, csvEncodeLine flds)] := by
    rw [endPosLI_eq]
    have hmax : maxTargetSucc [(n + 1, csvEncodeLine flds)] = n + 2 := by
      simp [maxTargetSucc]
    rw [hmax]
    simp only [insertFuel, List.foldl_cons, List.foldl_nil]
    omega
  unfold insertData
  simp only [hnum, exceptToRun_ok, hsort, henc, optionToRun_some, hinj]
  rw [runLI_eq_expected _ file [(n + 1, csvEncodeLine flds)] 0 hinv hfuelb]
  rw [runToResult_some, expectedLI_single]

theorem insert_rows_replaces_or_pads_witness :
    ([Value.I32 2, Value.Str "Bobby"].mapM formatValue = some ["2", "Bobby"]) ∧
    splitStrOn '\n' (csvEncodeLine ["2", "Bobby"]) = [csvEncodeLine ["2", "Bobby"]] ∧
    insertData ["id,name", "1,Alice", "2,Bob"]
        [((1 : Int), [Value.I32 2, Value.Str "Bobby"])] =
      .ok (if 1 + 1 < (["id,name", "1,Alice", "2,Bob"] : List String).length
        then (["id,name", "1,Alice", "2,Bob"] : List String).set (1 + 1)
          (csvEncodeLine ["2", "Bobby"])
        else ["id,name", "1,Alice", "2,Bob"] ++
          List.replicate (1 + 1 - (["id,name", "1,Alice", "2,Bob"] : List String).length) "" ++
          [csvEncodeLine ["2", "Bobby"]]) :=
  ⟨by decide, by decide,
    insert_rows_replaces_or_pads ["id,name", "1,Alice", "2,Bob"] 1
      [Value.I32 2, Value.Str "Bobby"] ["2", "Bobby"] (by decide) (by decide)⟩

/-! ## Claim theorems: keyed delete -/

/-- C1 (failing input): on the spec's own scenario — header `id,name`, data
rows `1,Alice` and `2,Bob` — `delete_data([0])` builds a buffer holding
`1,Alice` and `2,Bob` (it matched the raw file line 0, i.e. the header,
against the ordinal and only began copying lines after the deletion queue
emptied) and leaves the file itself untouched, instead of producing a file
holding exactly `id,name` and `2,Bob`. -/
theorem delete_rows_failing_eval :
    deleteData ["id,name", "1,Alice", "2,Bob"] [(0 : Int)] =
      .ok (["1,Alice", "2,Bob"], ["id,name", "1,Alice", "2,Bob"]) := by rfl

/-- C4: on success, `delete_data` leaves the backing file byte-for-byte
unchanged: the filtered buffer is never written back. -/
theorem delete_data_leaves_file_unchanged (fileLines : List String)
    (keys : List Int) (buf fileAfter : List String)
    (h : deleteData fileLines keys = .ok (buf, fileAfter)) :
    fileAfter = fileLines := by
  unfold deleteData at h
  cases hm : keys.mapM getRowNum with
  | error e =>
    rw [hm] at h
    simp [Except.map] at h
  | ok nums =>
    rw [hm] at h
    simp only [Except.map, Except.ok.injEq, Prod.mk.injEq] at h
    exact h.2.symm

theorem delete_data_leaves_file_unchanged_witness :
    deleteData ["id,name", "1,Alice", "2,Bob"] [(1 : Int)] =
      .ok (["2,Bob"], ["id,name", "1,Alice", "2,Bob"]) ∧
    (["id,name", "1,Alice", "2,Bob"] : List String) =
      ["id,name", "1,Alice", "2,Bob"] :=
  ⟨by rfl,
    delete_data_leaves_file_unchanged ["id,name", "1,Alice", "2,Bob"]
      [(1 : Int)] ["2,Bob"] ["id,name", "1,Alice", "2,Bob"] (by rfl)⟩

/-! ## Claim theorems: the row codec -/

/-- C9 (failing input): `format_value` hits `todo!()` — a panic, not a
returned error — on every kind beyond numeric/text/bool/bytea, while
numeric and text kinds return normally. -/
theorem format_value_panics_on_rich_kinds :
    formatValue Value.Date = none ∧ formatValue Value.Timestamp = none ∧
    formatValue Value.Time = none ∧ formatValue Value.Interval = none ∧
    formatValue Value.Uuid = none ∧ formatValue Value.Map = none ∧
    formatValue Value.List = none ∧ formatValue (Value.I32 5) = some "5" ∧
    formatValue (Value.Str "x") = some "x" :=
  ⟨rfl, rfl, rfl, rfl, rfl, rfl, rfl, rfl, rfl⟩

/-- C3 (counterexample): two entries of one `insert_data` call targeting the
same ordinal.  The merge does **not** produce a finite output file — the
model's collector runs out of (sufficient) fuel, i.e. the `for` loop over
the injector never ends — and the line that does come out at the contested
position is the **earlier**-sorted `"a"`, not the later-sorted `"b"`. -/
theorem duplicate_target_cex :
    insertData ["id"] [((0 : Int), [Value.Str "a"]), ((0 : Int), [Value.Str "b"])] =
      .diverge ∧
    nthOut (["id"], sortByKey [(0, "a"), (0, "b")], 0) 0 = some "a" ∧
    "a" ≠ "b" :=
  ⟨by decide, by rfl, by decide⟩

/-! ## Claim theorems: identity resolution -/

/-- C5 (counterexample): a component with a dot breaks the
name → path → name round trip: `data.csv` comes back as `data` (the `.csv`
is stripped), and `a.b` fails outright with the non-csv-extension error. -/
theorem name_roundtrip_dot_cex :
    roundTripName ["r"] ["data.csv"] = .ok ["data"] ∧
    (["data"] : List String) ≠ ["data.csv"] ∧
    roundTripName ["r"] ["a.b"] = .error "table path with non-csv extension" :=
  ⟨by rfl, by decide, by rfl⟩

/-- C8 (counterexample): name-to-path resolution of a name made of the
traversal segment `..` succeeds — no `PathEscapesRoot`, no error at all —
and the resulting path is not a descendant of the root. -/
theorem traversal_escapes_root_cex :
    nameToPath ["r"] [".."] = .ok ["r", ".."] ∧
    isDescendant ["r"] ["r", ".."] = false :=
  ⟨by rfl, by rfl⟩

/-! ## Claim theorems: append and scan -/

/-- C7 (counterexample): appending the text value `"5"` to an empty table
and scanning does not decode back the appended value: schema inference
types the column Integer, so the scan returns `I32 5`. -/
theorem append_scan_decode_cex :
    appendData [["c"]] [[Value.Str "5"]] = .ok [["c"], ["5"]] ∧
    scanData [["c"], ["5"]] = .ok [(0, [Value.I32 5])] ∧
    Value.I32 5 ≠ Value.Str "5" :=
  ⟨by rfl, by rfl, by decide⟩

/-! ## Claim theorems: schema inference -/

theorem ctMax_comm (a b : ColumnType) : ctMax a b = ctMax b a := by
  cases a <;> cases b <;> rfl

/-- With no malformed record, the `try_fold` of `determine_column_types` is
the plain fold of pointwise merges. -/
theorem determineColumnTypes_foldlM (records : List (List String))
    (ncols : Nat) (hlen : ∀ r ∈ records, r.length = ncols)
    (init : List ColumnType) :
    records.foldlM
      (fun acc record =>
        if record.length = ncols then
          pure (mergeColumnTypes (columnTypesFromRecord record) acc)
        else
          (Except.error "MalformedRecord" : Except String (List ColumnType)))
      init =
      .ok (records.foldl
        (fun acc r => mergeColumnTypes (columnTypesFromRecord r) acc) init) := by
  induction records generalizing init with
  | nil => rfl
  | cons r rs ih =>
    rw [List.foldlM_cons, if_pos (hlen r (List.mem_cons_self r rs)), pure_bind]
    exact ih (fun q hq => hlen q (List.mem_cons_of_mem r hq)) _

theorem mergeColumnTypes_length (first second : List ColumnType) :
    (mergeColumnTypes first second).length = min first.length second.length := by
  simp [mergeColumnTypes]

theorem foldl_merge_length (records : List (List String)) (ncols : Nat)
    (hlen : ∀ r ∈ records, r.length = ncols) (init : List ColumnType)
    (hinit : init.length = ncols) :
    (records.foldl
      (fun acc r => mergeColumnTypes (columnTypesFromRecord r) acc)
      init).length = ncols := by
  induction records generalizing init with
  | nil => exact hinit
  | cons r rs ih =>
    rw [List.foldl_cons]
    refine ih (fun q hq => hlen q (List.mem_cons_of_mem r hq)) _ ?_
    rw [mergeColumnTypes_length]
    simp [columnTypesFromRecord, hlen r (List.mem_cons_self r rs), hinit]

theorem foldl_merge_getD (records : List (List String)) (ncols : Nat)
    (hlen : ∀ r ∈ records, r.length = ncols) (init : List ColumnType)
    (hinit : init.length = ncols) (j : Nat) (hj : j < ncols) :
    (records.foldl
      (fun acc r => mergeColumnTypes (columnTypesFromRecord r) acc)
      init).getD j .int =
      (records.map fun r => minColumnType (r.getD j "")).foldl ctMax
        (init.getD j .int) := by
  induction records generalizing init with
  | nil => rfl
  | cons r rs ih =>
    rw [List.foldl_cons, List.map_cons, List.foldl_cons]
    have hr : r.length = ncols := hlen r (List.mem_cons_self r rs)
    have hmerge : (mergeColumnTypes (columnTypesFromRecord r) init).getD j .int =
        ctMax (init.getD j .int) (minColumnType (r.getD j "")) := by
      have hjr : j < (columnTypesFromRecord r).length := by
        simp [columnTypesFromRecord, hr, hj]
      have hji : j < init.length := by omega
      have hjm : j < (mergeColumnTypes (columnTypesFromRecord r) init).length := by
        rw [mergeColumnTypes_length]
        simp [columnTypesFromRecord, hr, hinit, hj]
      rw [List.getD_eq_getElem _ _ hjm, List.getD_eq_getElem _ _ hji]
      simp only [mergeColumnTypes, List.getElem_zipWith]
      rw [ctMax_comm]
      congr 1
      simp only [columnTypesFromRecord, List.getElem_map]
      rw [List.getD_eq_getElem _ _ (by omega : j < r.length)]
    rw [ih (fun q hq => hlen q (List.mem_cons_of_mem r hq)) _
      (by rw [mergeColumnTypes_length]; simp [columnTypesFromRecord, hr, hinit]),
      hmerge]

/-- C6: schema inference types each value Integer / Float / Text by i64 /
f64 parseability (that is the definition of `minColumnType`), infers each
column as the fold of the pointwise maximum under
Integer < Float < Text over all records (starting from the all-Integer
identity), and infers Integer for every column of a file with a header and
zero data rows. -/
theorem schema_inference_max_fold (records : List (List String))
    (ncols : Nat) (hlen : ∀ r ∈ records, r.length = ncols) :
    (determineColumnTypes records ncols =
      .ok ((List.range ncols).map fun j =>
        (records.map fun r => minColumnType (r.getD j "")).foldl ctMax .int)) ∧
    determineColumnTypes [] ncols = .ok (List.replicate ncols .int) := by
  constructor
  · rw [determineColumnTypes, determineColumnTypes_foldlM records ncols hlen]
    congr 1
    apply List.ext_getElem
    · rw [foldl_merge_length records ncols hlen _ (List.length_replicate ..)]
      simp
    · intro j h1 h2
      have hj : j < ncols := by
        rwa [foldl_merge_length records ncols hlen _ (List.length_replicate ..)]
          at h1
      rw [← List.getD_eq_getElem _ ColumnType.int h1]
      rw [foldl_merge_getD records ncols hlen _ (List.length_replicate ..) j hj]
      rw [List.getD_eq_getElem _ _ (by simp [hj] : j < (List.replicate ncols ColumnType.int).length),
        List.getElem_replicate]
      simp only [List.getElem_map, List.getElem_range]
  · rfl

theorem schema_inference_max_fold_witness :
    determineColumnTypes [["1", "Alice"], ["2.5", "Bob"]] 2 =
      .ok ((List.range 2).map fun j =>
        ([["1", "Alice"], ["2.5", "Bob"]].map fun r =>
          minColumnType (r.getD j "")).foldl ctMax .int) ∧
    determineColumnTypes [["1", "Alice"], ["2.5", "Bob"]] 2 =
      .ok [.float, .string] :=
  ⟨(schema_inference_max_fold [["1", "Alice"], ["2.5", "Bob"]] 2
      (by decide)).1, by rfl⟩

/-! ## Claim theorems: identity resolution, amended -/

theorem pathToName_components_ok (l : List String)
    (h : ∀ c ∈ l, ¬ (c = "." ∨ c = "..")) :
    (l.mapM fun c =>
      if c = "." ∨ c = ".." then
        Except.error "Unexpected path component"
      else
        Except.ok c) = .ok l := by
  induction l with
  | nil => rfl
  | cons c cs ih =>
    rw [List.mapM_cons, if_neg (h c (List.mem_cons_self c cs)),
      ih fun q hq => h q (List.mem_cons_of_mem c hq)]
    rfl

/-- C5 (amended): name → path → name is the identity for non-empty names
whose components are non-empty, slash-free and non-traversal, **provided
the final component carries no extension** (no dot after its first
character); a final component with an extension is either rejected
(non-`csv`) or silently stripped (`csv`), breaking the round trip. -/
theorem name_roundtrip_identity (root parts : List String)
    (hne : parts ≠ [])
    (hcomp : ∀ p ∈ parts, p ≠ "" ∧ p ≠ "." ∧ p ≠ ".." ∧ ¬ p.data.contains '/')
    (hlast : extOfFileName (parts.getLastD "") = none) :
    roundTripName root parts = .ok parts := by
  have hl? : parts.getLast? = some (parts.getLast hne) :=
    List.getLast?_eq_getLast parts hne
  have hlmem : parts.getLast hne ∈ parts := List.getLast_mem hne
  obtain ⟨-, hdot, hddot, -⟩ := hcomp _ hlmem
  have hlastD : parts.getLastD "" = parts.getLast hne := by
    rw [List.getLastD_eq_getLast? _ parts, hl?]
    rfl
  have happ? : (root ++ parts).getLast? = some (parts.getLast hne) := by
    rw [List.getLast?_append, hl?]
    rfl
  have hfname : fileNameOf (root ++ parts) = some (parts.getLast hne) := by
    rw [fileNameOf, happ?]
    exact if_neg (by tauto)
  have hext : extensionOf (root ++ parts) = none := by
    rw [extensionOf, hfname]
    show extOfFileName (parts.getLast hne) = none
    rw [← hlastD]
    exact hlast
  have hglD : (root ++ parts).getLastD "" = parts.getLast hne := by
    rw [List.getLastD_eq_getLast? _ _, happ?]
    rfl
  have hde : dropExtension (parts.getLast hne) = parts.getLast hne := by
    unfold dropExtension
    rw [← hlastD, hlast]
  have hdropext : pathDropExtension (root ++ parts) = root ++ parts := by
    unfold pathDropExtension
    rw [hfname]
    show (root ++ parts).dropLast ++ [dropExtension ((root ++ parts).getLastD "")] =
      root ++ parts
    rw [hglD, hde, List.dropLast_append_of_ne_nil _ hne, List.append_assoc,
      List.dropLast_append_getLast hne]
  have hn2p : nameToPath root parts = .ok (root ++ parts) := by
    unfold nameToPath tablePathTryNew
    rw [hext]
    show Except.ok (pathDropExtension (root ++ parts)) = Except.ok (root ++ parts)
    rw [hdropext]
  unfold roundTripName
  rw [hn2p]
  show pathToName root (root ++ parts) = .ok parts
  unfold pathToName
  rw [if_pos (List.isPrefixOf_iff_prefix.mpr (List.prefix_append root parts)),
    List.drop_left]
  exact pathToName_components_ok parts fun c hc => by
    have := hcomp c hc
    tauto

theorem name_roundtrip_identity_witness :
    ((["ns", "table"] : List String) ≠ []) ∧
    (∀ p ∈ (["ns", "table"] : List String),
      p ≠ "" ∧ p ≠ "." ∧ p ≠ ".." ∧ ¬ p.data.contains '/') ∧
    extOfFileName ((["ns", "table"] : List String).getLastD "") = none ∧
    roundTripName ["r"] ["ns", "table"] = .ok ["ns", "table"] :=
  ⟨by decide, by decide, by rfl,
    name_roundtrip_identity ["r"] ["ns", "table"] (by decide) (by decide)
      (by rfl)⟩

/-- C8 (amended): resolution performs no canonicalization and raises no
dedicated `PathEscapesRoot`: path-to-name conversion fails (with the
generic "path is not in data directory" error) whenever the root is not a
literal component prefix of the path, while name-to-path conversion applies
only the extension check — a name ending in the traversal segment `..`
resolves successfully to `root ++ parts`, with no containment check at
all. -/
theorem resolution_containment_amended :
    (∀ root path : List String, ¬ root.isPrefixOf path →
      pathToName root path = .error "path is not in data directory") ∧
    (∀ root parts : List String, parts.getLast? = some ".." →
      nameToPath root parts = .ok (root ++ parts)) := by
  constructor
  · intro root path h
    unfold pathToName
    rw [if_neg h]
  · intro root parts hlast
    have happ? : (root ++ parts).getLast? = some ".." := by
      rw [List.getLast?_append, hlast]
      rfl
    have hfname : fileNameOf (root ++ parts) = none := by
      rw [fileNameOf, happ?]
      exact if_pos (by tauto)
    have hext : extensionOf (root ++ parts) = none := by
      rw [extensionOf, hfname]
      rfl
    have hdropext : pathDropExtension (root ++ parts) = root ++ parts := by
      unfold pathDropExtension
      rw [hfname]
    unfold nameToPath tablePathTryNew
    rw [hext]
    show Except.ok (pathDropExtension (root ++ parts)) = Except.ok (root ++ parts)
    rw [hdropext]

theorem resolution_containment_amended_witness :
    (¬ (["r"] : List String).isPrefixOf ["q", "t"]) ∧
    pathToName ["r"] ["q", "t"] = .error "path is not in data directory" ∧
    (["a", ".."] : List String).getLast? = some ".." ∧
    nameToPath ["r"] ["a", ".."] = .ok (["r"] ++ ["a", ".."]) :=
  ⟨by decide, resolution_containment_amended.1 ["r"] ["q", "t"] (by decide),
    by rfl, resolution_containment_amended.2 ["r"] ["a", ".."] (by rfl)⟩

/-! ## Claim theorems: append and scan, amended -/

theorem mapM_except_ok_append {α β : Type} (f : α → Except String β)
    (l₁ l₂ : List α) (a b : List β) (h₁ : l₁.mapM f = .ok a)
    (h₂ : l₂.mapM f = .ok b) : (l₁ ++ l₂).mapM f = .ok (a ++ b) := by
  induction l₁ generalizing a with
  | nil =>
    have h' : (Except.ok ([] : List β) : Except String (List β)) = .ok a := h₁
    cases h'
    exact h₂
  | cons c cs ih =>
    rw [List.mapM_cons] at h₁
    rw [List.cons_append, List.mapM_cons]
    cases hfc : f c with
    | error e =>
      rw [hfc] at h₁
      have h' : (Except.error e : Except String (List β)) = .ok a := h₁
      cases h'
    | ok x =>
      rw [hfc] at h₁
      cases hcs : cs.mapM f with
      | error e =>
        rw [hcs] at h₁
        have h' : (Except.error e : Except String (List β)) = .ok a := h₁
        cases h'
      | ok xs =>
        rw [hcs] at h₁
        have h' : (Except.ok (x :: xs) : Except String (List β)) = .ok a := h₁
        cases h'
        rw [ih xs hcs]
        rfl

theorem mapM_except_ok_length {α β : Type} (f : α → Except String β)
    (l : List α) (a : List β) (h : l.mapM f = .ok a) : a.length = l.length := by
  induction l generalizing a with
  | nil =>
    have h' : (Except.ok ([] : List β) : Except String (List β)) = .ok a := h
    cases h'
    rfl
  | cons c cs ih =>
    rw [List.mapM_cons] at h
    cases hfc : f c with
    | error e =>
      rw [hfc] at h
      have h' : (Except.error e : Except String (List β)) = .ok a := h
      cases h'
    | ok x =>
      rw [hfc] at h
      cases hcs : cs.mapM f with
      | error e =>
        rw [hcs] at h
        have h' : (Except.error e : Except String (List β)) = .ok a := h
        cases h'
      | ok xs =>
        rw [hcs] at h
        have h' : (Except.ok (x :: xs) : Except String (List β)) = .ok a := h
        cases h'
        simp [ih xs hcs]

/-- C7 (amended): append-rows writes one encoded record per row, in input
order, after all existing lines; a subsequent scan yields the concatenation
of the re-decoded pre-existing rows and the appended rows, keyed
sequentially — so the appended rows sit at the ordinals following the
pre-existing data rows — **provided** each encoded row re-decodes to the
row that was appended under the file's freshly inferred column types
(hypothesis `hdec`; the counterexample shows it can fail, e.g. for the
text value `"5"`). -/
theorem append_scan_appended_rows (header : List String)
    (pre encs : List (List String)) (rows preDec : List (List Value))
    (types : List ColumnType)
    (henc : rows.mapM (fun r => r.mapM formatValue) = some encs)
    (htypes : determineColumnTypes (pre ++ encs) header.length = .ok types)
    (hpre : pre.mapM (fun rec => readCsvRecord rec types) = .ok preDec)
    (hdec : encs.mapM (fun rec => readCsvRecord rec types) = .ok rows) :
    appendData (header :: pre) rows = .ok (header :: (pre ++ encs)) ∧
    scanData (header :: (pre ++ encs)) = .ok ((preDec ++ rows).enum) ∧
    preDec.length = pre.length ∧
    ∀ i, i < rows.length →
      ((preDec ++ rows).enum).getD (preDec.length + i) (0, []) =
        (preDec.length + i, rows.getD i []) := by
  refine ⟨?_, ?_, mapM_except_ok_length _ pre preDec hpre, ?_⟩
  · unfold appendData
    rw [henc]
    rfl
  · show (determineColumnTypes (pre ++ encs) header.length).bind
      (fun colTypes =>
        ((pre ++ encs).mapM fun record => readCsvRecord record colTypes).map
          fun rows => rows.enum) = .ok ((preDec ++ rows).enum)
    rw [htypes]
    show (((pre ++ encs).mapM fun record => readCsvRecord record types).map
      fun rows => rows.enum) = .ok ((preDec ++ rows).enum)
    rw [mapM_except_ok_append _ pre encs preDec rows hpre hdec]
    rfl
  · intro i hi
    have hlt : preDec.length + i < (preDec ++ rows).length := by
      simp only [List.length_append]
      omega
    have hlt' : preDec.length + i < ((preDec ++ rows).enum).length := by
      simpa using hlt
    rw [List.getD_eq_getElem _ _ hlt', List.getElem_enum]
    have : (preDec ++ rows)[preDec.length + i] = rows.getD i [] := by
      rw [List.getElem_append_right (by omega : preDec.length ≤ preDec.length + i)]
      rw [List.getD_eq_getElem rows [] (by omega : i < rows.length)]
      congr 1
      omega
    rw [this]

theorem append_scan_appended_rows_witness :
    ([[Value.I32 2, Value.Str "Bob"]].mapM
      (fun r => r.mapM formatValue) = some [["2", "Bob"]]) ∧
    appendData [["id", "name"], ["1", "Alice"]] [[Value.I32 2, Value.Str "Bob"]] =
      .ok [["id", "name"], ["1", "Alice"], ["2", "Bob"]] ∧
    scanData [["id", "name"], ["1", "Alice"], ["2", "Bob"]] =
      .ok (([[Value.I32 1, Value.Str "Alice"]] ++
        [[Value.I32 2, Value.Str "Bob"]]).enum) ∧
    (([[Value.I32 1, Value.Str "Alice"]] ++
        [[Value.I32 2, Value.Str "Bob"]]).enum).getD 1 (0, []) =
      (1, [Value.I32 2, Value.Str "Bob"]) := by
  have h := append_scan_appended_rows ["id", "name"] [["1", "Alice"]]
    [["2", "Bob"]] [[Value.I32 2, Value.Str "Bob"]]
    [[Value.I32 1, Value.Str "Alice"]] [.int, .string]
    (by rfl) (by rfl) (by rfl) (by rfl)
  exact ⟨by rfl, h.1, h.2.1, h.2.2.2 0 (by decide)⟩

end Feet
